import Mathlib

/-!
Formatted output of xv6-riscv: `user/printf.c`.

A shallow embedding of `putc`, `printint`, `printptr` and `vprintf`, and the
properties of the format specifiers proved on it.

Conventions of the embedding.

* A byte is a `Nat`; a memory cell is read modulo 256.
* `int` is an `Int` in `[-2^31, 2^31)`, `uint` a `Nat` below `2^32`, `uint64` a
  `Nat` below `2^64`; conversions are written with explicit `% 2^w`.
* The byte sink is a trace: every `write(fd, &c, 1)` appends the request
  `(fd, c)` to the list of requests issued so far.
* A `const char *` is the list of the memory cells from the address it points
  to onwards; running off the end of that list is a fault (`none`).
* `va_list` is the list of the 64-bit argument slots not yet consumed
  (the LP64 calling convention of the target gives every variadic argument one
  8-byte slot); `va_arg` pops the head, and popping an empty list is a fault.
* Behaviour the C standard leaves undefined and the model does not give a
  meaning to is the result `none`.
* The definitions whose name ends in `On` are the same functions run against
  an explicit sink (`Sink`, `World`), whose `write` returns a value that `putc`
  drops; they are proved to make the requests of the trace.
-/

namespace Printf

/-- One request to the byte sink: `write(fd, &c, 1)`. -/
abbrev Write := Int × Nat

/-- The table `static char digits[] = "0123456789ABCDEF";` (17 bytes, the
terminating zero included). -/
def digits : List Nat :=
  [48, 49, 50, 51, 52, 53, 54, 55, 56, 57, 65, 66, 67, 68, 69, 70, 0]

/-- The function `putc(int fd, char c)`: one `write` of the single byte `c`; the
conversion of the argument to `char` keeps its low 8 bits. -/
def putc (fd : Int) (c : Nat) : List Write :=
  [(fd, c % 256)]

/-- Conversion of an integer value to `uint` (32 bits). -/
def toU32 (z : Int) : Nat :=
  (z % 2 ^ 32).toNat

/-- Conversion of an unsigned value to `int` (32 bits, two's complement). -/
def toInt32 (n : Nat) : Int :=
  if n % 2 ^ 32 < 2 ^ 31 then ((n % 2 ^ 32 : Nat) : Int)
  else ((n % 2 ^ 32 : Nat) : Int) - 2 ^ 32

/-- The loop `do { d = x / base; r = x % base; x = d; buf[i++] = digits[r]; }
while (x != 0);` of `printint`. Every iteration stores into the next cell of
`buf`, so the number of cells left (`room`, `16 - i` at the call) bounds the
iterations: with no cell left the store is out of bounds. Returns the buffer
and `i` after the loop. -/
def digitLoop (base : Nat) : (room : Nat) → (x : Nat) → (buf : List Nat) → (i : Nat) →
    Option (List Nat × Nat)
  | 0, _, _, _ => none
  | room + 1, x, buf, i =>
    if base = 0 then none
    else
      let d := x / base
      let r := x % base
      match digits[r]? with
      | none => none
      | some c =>
        if i < buf.length then
          let buf := buf.set i c
          if d ≠ 0 then digitLoop base room d buf (i + 1)
          else some (buf, i + 1)
        else none

/-- The loop `while (--i >= 0) { putc(fd, buf[i]); buf[i] = 0; }` of
`printint`. -/
def emitLoop (fd : Int) : (i : Nat) → (buf : List Nat) → Option (List Write)
  | 0, _ => some []
  | i + 1, buf =>
    match buf[i]? with
    | none => none
    | some c =>
      match emitLoop fd i (buf.set i 0) with
      | none => none
      | some out => some (putc fd c ++ out)

/-- The function `printint(int fd, int xx, int base, int sgn)`. `buf` is
`char buf[16]`; C leaves its initial contents indeterminate and the model
starts it zeroed. The negation `-xx` wraps at 32 bits (`x` is `uint`), and
`base` is converted to `uint` for `/` and `%`. -/
def printint (fd : Int) (xx : Int) (base : Int) (sgn : Int) : Option (List Write) :=
  let neg : Nat := if sgn ≠ 0 ∧ xx < 0 then 1 else 0
  let x : Nat := if sgn ≠ 0 ∧ xx < 0 then toU32 (-xx) else toU32 xx
  match digitLoop (toU32 base) 16 x (List.replicate 16 0) 0 with
  | none => none
  | some (buf, i) =>
    if i < buf.length then
      let buf := buf.set i 45
      emitLoop fd (i + neg) buf
    else none

/-- The loop `for (i = 0; i < 16; i++, x <<= 4) putc(fd, digits[x >> 60]);` of
`printptr`, with `n = 16 - i` iterations left; `x` is `uint64`. -/
def printptrLoop (fd : Int) : (n : Nat) → (x : Nat) → Option (List Write)
  | 0, _ => some []
  | n + 1, x =>
    match digits[x >>> 60]? with
    | none => none
    | some c =>
      match printptrLoop fd n ((x <<< 4) % 2 ^ 64) with
      | none => none
      | some out => some (putc fd c ++ out)

/-- The function `printptr(int fd, uint64 x)`. -/
def printptr (fd : Int) (x : Nat) : Option (List Write) :=
  match printptrLoop fd 16 (x % 2 ^ 64) with
  | none => none
  | some out => some (putc fd 48 ++ putc fd 120 ++ out)

/-- The loop `while (*s != 0) { putc(fd, *s); s++; }` of the `%s` case, on the
memory cells from `s` onwards. -/
def putsLoop (fd : Int) : (s : List Nat) → Option (List Write)
  | [] => none
  | b :: rest =>
    if b % 256 ≠ 0 then
      match putsLoop fd rest with
      | none => none
      | some out => some (putc fd b ++ out)
    else some []

/-- The string literal `"(null)"` with its terminator. -/
def nullStr : List Nat := [40, 110, 117, 108, 108, 41, 0]

/-- The variables of `vprintf` that live across iterations of its loop,
together with the trace of the sink. -/
structure Scan where
  /-- Requests issued to the sink so far, oldest first. -/
  out : List Write
  /-- The argument slots not yet consumed (`ap`). -/
  ap : List Nat
  /-- The variable `state`: `0` or `'%'`. -/
  state : Nat
deriving DecidableEq

/-- Run an emitter and append what it wrote to the trace; `va_arg` has already
advanced `ap`, and `state = 0` is the last statement of the branch. -/
def resolve (st : Scan) (ap : List Nat) (w : Option (List Write)) : Option Scan :=
  match w with
  | none => none
  | some ws => some ⟨st.out ++ ws, ap, 0⟩

/-- The body of the `for` loop of `vprintf` for the byte `c = fmt[i] & 0xff`.
`mem` is the memory a `char *` argument points into (address `0` is the null
pointer). -/
def step (mem : List Nat) (fd : Int) (st : Scan) (c : Nat) : Option Scan :=
  if st.state = 0 then
    if c = 37 then some { st with state := 37 }
    else some { st with out := st.out ++ putc fd c }
  else if st.state = 37 then
    if c = 100 then
      match st.ap with
      | [] => none
      | a :: ap => resolve st ap (printint fd (toInt32 a) 10 1)
    else if c = 108 then
      match st.ap with
      | [] => none
      | a :: ap => resolve st ap (printint fd (toInt32 (a % 2 ^ 64)) 10 0)
    else if c = 120 then
      match st.ap with
      | [] => none
      | a :: ap => resolve st ap (printint fd (toInt32 a) 16 0)
    else if c = 112 then
      match st.ap with
      | [] => none
      | a :: ap => resolve st ap (printptr fd (a % 2 ^ 64))
    else if c = 115 then
      match st.ap with
      | [] => none
      | a :: ap =>
        let s := if a % 2 ^ 64 = 0 then nullStr else mem.drop (a % 2 ^ 64)
        resolve st ap (putsLoop fd s)
    else if c = 99 then
      match st.ap with
      | [] => none
      | a :: ap => resolve st ap (some (putc fd (a % 2 ^ 32)))
    else if c = 37 then
      resolve st st.ap (some (putc fd c))
    else
      resolve st st.ap (some (putc fd 37 ++ putc fd c))
  else some st

/-- The loop `for (i = 0; fmt[i]; i++) { c = fmt[i] & 0xff; ... }` of `vprintf`,
on the memory cells from `fmt + i` onwards. The index `i` is the position in
the list and is not bounded by the range of `int`. -/
def vprintfLoop (mem : List Nat) (fd : Int) : (fmt : List Nat) → (st : Scan) → Option Scan
  | [], _ => none
  | b :: rest, st =>
    if b % 256 ≠ 0 then
      match step mem fd st (b % 256) with
      | none => none
      | some st => vprintfLoop mem fd rest st
    else some st

/-- The function `vprintf(int fd, const char *fmt, va_list ap)`: the state when
the loop ends, holding every request issued to the sink and the argument slots
left. -/
def vprintf (mem : List Nat) (fd : Int) (fmt : List Nat) (ap : List Nat) : Option Scan :=
  vprintfLoop mem fd fmt ⟨[], ap, 0⟩

/-- The character `printint` stores for the digit value `r`. -/
def digitChar (r : Nat) : Nat := digits.getD r 0

/-- The digit values `printint` produces for the magnitude `x`, least
significant first: the digits of `x` in base `base`, and one `0` for zero. -/
def lsDigits (base x : Nat) : List Nat :=
  if x = 0 then [0] else Nat.digits base x

/-- The variant of `printint` that the source keeps in a comment, with the
branch `if(neg) buf[i++] = '-';` in place of the unconditional store
`buf[i] = '-'; i += neg;`. -/
def printintBranching (fd : Int) (xx : Int) (base : Int) (sgn : Int) : Option (List Write) :=
  let neg : Nat := if sgn ≠ 0 ∧ xx < 0 then 1 else 0
  let x : Nat := if sgn ≠ 0 ∧ xx < 0 then toU32 (-xx) else toU32 xx
  match digitLoop (toU32 base) 16 x (List.replicate 16 0) 0 with
  | none => none
  | some (buf, i) =>
    if neg ≠ 0 then
      if i < buf.length then
        let buf := buf.set i 45
        emitLoop fd (i + 1) buf
      else none
    else emitLoop fd i buf

/-- A byte sink: the state it keeps and its primitive `write(fd, buf, n)`
applied to the `n` bytes `buf`, which gives the next state of the sink and the
value `write` returns (the number of bytes written, or `-1` when it fails). -/
structure Sink (σ : Type) where
  /-- The system call `write`. -/
  write : σ → Int → List Nat → σ × Int

/-- The sink and the record of the requests made to it, oldest first. -/
structure World (σ : Type) where
  /-- State of the sink. -/
  sink : σ
  /-- Every call of `write` so far: its `fd` and the bytes passed. -/
  reqs : List (Int × List Nat)

/-- The function `putc` against a sink: `write(fd, &c, 1)` is called and the
value it returns is not looked at. -/
def putcOn {σ : Type} (S : Sink σ) (w : World σ) (fd : Int) (c : Nat) : World σ :=
  ⟨(S.write w.sink fd [c % 256]).1, w.reqs ++ [(fd, [c % 256])]⟩

/-- The emission loop of `printint` against a sink. -/
def emitLoopOn {σ : Type} (S : Sink σ) (fd : Int) :
    (i : Nat) → (buf : List Nat) → World σ → Option (World σ)
  | 0, _, w => some w
  | i + 1, buf, w =>
    match buf[i]? with
    | none => none
    | some c => emitLoopOn S fd i (buf.set i 0) (putcOn S w fd c)

/-- The function `printint` against a sink. -/
def printintOn {σ : Type} (S : Sink σ) (w : World σ) (fd : Int) (xx : Int) (base : Int)
    (sgn : Int) : Option (World σ) :=
  let neg : Nat := if sgn ≠ 0 ∧ xx < 0 then 1 else 0
  let x : Nat := if sgn ≠ 0 ∧ xx < 0 then toU32 (-xx) else toU32 xx
  match digitLoop (toU32 base) 16 x (List.replicate 16 0) 0 with
  | none => none
  | some (buf, i) =>
    if i < buf.length then
      let buf := buf.set i 45
      emitLoopOn S fd (i + neg) buf w
    else none

/-- The loop of `printptr` against a sink. -/
def printptrLoopOn {σ : Type} (S : Sink σ) (fd : Int) :
    (n : Nat) → (x : Nat) → World σ → Option (World σ)
  | 0, _, w => some w
  | n + 1, x, w =>
    match digits[x >>> 60]? with
    | none => none
    | some c => printptrLoopOn S fd n ((x <<< 4) % 2 ^ 64) (putcOn S w fd c)

/-- The function `printptr` against a sink. -/
def printptrOn {σ : Type} (S : Sink σ) (w : World σ) (fd : Int) (x : Nat) :
    Option (World σ) :=
  printptrLoopOn S fd 16 (x % 2 ^ 64) (putcOn S (putcOn S w fd 48) fd 120)

/-- The loop of the `%s` case against a sink. -/
def putsLoopOn {σ : Type} (S : Sink σ) (fd : Int) :
    (s : List Nat) → World σ → Option (World σ)
  | [], _ => none
  | b :: rest, w =>
    if b % 256 ≠ 0 then putsLoopOn S fd rest (putcOn S w fd b)
    else some w

/-- The variables of `vprintf` across iterations, with the sink. -/
structure ScanOn (σ : Type) where
  /-- The sink and the requests made so far. -/
  world : World σ
  /-- The argument slots not yet consumed. -/
  ap : List Nat
  /-- The variable `state`. -/
  state : Nat

/-- End of a branch of the state `'%'`, against a sink. -/
def resolveOn {σ : Type} (ap : List Nat) (w : Option (World σ)) : Option (ScanOn σ) :=
  match w with
  | none => none
  | some w => some ⟨w, ap, 0⟩

/-- The body of the loop of `vprintf` against a sink. -/
def stepOn {σ : Type} (S : Sink σ) (mem : List Nat) (fd : Int) (st : ScanOn σ) (c : Nat) :
    Option (ScanOn σ) :=
  if st.state = 0 then
    if c = 37 then some { st with state := 37 }
    else some { st with world := putcOn S st.world fd c }
  else if st.state = 37 then
    if c = 100 then
      match st.ap with
      | [] => none
      | a :: ap => resolveOn ap (printintOn S st.world fd (toInt32 a) 10 1)
    else if c = 108 then
      match st.ap with
      | [] => none
      | a :: ap => resolveOn ap (printintOn S st.world fd (toInt32 (a % 2 ^ 64)) 10 0)
    else if c = 120 then
      match st.ap with
      | [] => none
      | a :: ap => resolveOn ap (printintOn S st.world fd (toInt32 a) 16 0)
    else if c = 112 then
      match st.ap with
      | [] => none
      | a :: ap => resolveOn ap (printptrOn S st.world fd (a % 2 ^ 64))
    else if c = 115 then
      match st.ap with
      | [] => none
      | a :: ap =>
        let s := if a % 2 ^ 64 = 0 then nullStr else mem.drop (a % 2 ^ 64)
        resolveOn ap (putsLoopOn S fd s st.world)
    else if c = 99 then
      match st.ap with
      | [] => none
      | a :: ap => resolveOn ap (some (putcOn S st.world fd (a % 2 ^ 32)))
    else if c = 37 then
      resolveOn st.ap (some (putcOn S st.world fd c))
    else
      resolveOn st.ap (some (putcOn S (putcOn S st.world fd 37) fd c))
  else some st

/-- The loop of `vprintf` against a sink. -/
def vprintfLoopOn {σ : Type} (S : Sink σ) (mem : List Nat) (fd : Int) :
    (fmt : List Nat) → (st : ScanOn σ) → Option (ScanOn σ)
  | [], _ => none
  | b :: rest, st =>
    if b % 256 ≠ 0 then
      match stepOn S mem fd st (b % 256) with
      | none => none
      | some st => vprintfLoopOn S mem fd rest st
    else some st

/-- The function `vprintf` against a sink in the state `w`. -/
def vprintfOn {σ : Type} (S : Sink σ) (mem : List Nat) (fd : Int) (fmt : List Nat)
    (ap : List Nat) (w : World σ) : Option (ScanOn σ) :=
  vprintfLoopOn S mem fd fmt ⟨w, ap, 0⟩

/-- Making the requests `out` to a sink, one `write` of one byte each, in
order. -/
def issue {σ : Type} (S : Sink σ) (w : World σ) (out : List Write) : World σ :=
  out.foldl (fun w p => ⟨(S.write w.sink p.1 [p.2]).1, w.reqs ++ [(p.1, [p.2])]⟩) w

/-- Every request of `out` is for the descriptor `fd` and carries one byte. -/
def targets (fd : Int) (out : List Write) : Prop :=
  ∀ p ∈ out, p.1 = fd ∧ p.2 < 256

/-! ## The integer encoder -/

theorem digits_lookup {r : Nat} (h : r < 16) : digits[r]? = some (digitChar r) := by
  have h17 : r < digits.length := by simp [digits]; omega
  simp [digitChar, List.getD, List.getElem?_eq_getElem h17]

theorem digitChar_lt {r : Nat} (h : r < 16) : digitChar r % 256 = digitChar r := by
  interval_cases r <;> decide

theorem digitChar_dec {r : Nat} (h : r < 10) : digitChar r = r + 48 := by
  interval_cases r <;> decide

theorem take_succ_set {buf : List Nat} {i : Nat} (c : Nat) (h : i < buf.length) :
    (buf.set i c).take (i + 1) = buf.take i ++ [c] := by
  induction buf generalizing i with
  | nil => simp at h
  | cons b bs ih =>
    cases i with
    | zero => simp
    | succ j =>
      have hj : j < bs.length := by simpa using h
      simp [List.set, ih hj]

theorem take_set_self (buf : List Nat) (i c : Nat) :
    (buf.set i c).take i = buf.take i := by
  induction buf generalizing i with
  | nil => simp
  | cons b bs ih =>
    cases i with
    | zero => simp
    | succ j => simp [List.set, ih]

theorem lsDigits_length_pos (base x : Nat) : 0 < (lsDigits base x).length := by
  unfold lsDigits
  split
  · simp
  · rename_i hx
    have : Nat.digits base x ≠ [] := Nat.digits_ne_nil_iff_ne_zero.mpr hx
    exact List.length_pos.mpr this

theorem lsDigits_step (base x : Nat) (hb : 2 ≤ base) (hd : x / base ≠ 0) :
    lsDigits base x = (x % base) :: lsDigits base (x / base) := by
  have hx : x ≠ 0 := by
    rintro rfl
    simp at hd
  obtain ⟨b, rfl⟩ : ∃ b, base = b + 2 := ⟨base - 2, by omega⟩
  obtain ⟨n, rfl⟩ : ∃ n, x = n + 1 := ⟨x - 1, by omega⟩
  simp only [lsDigits, hx, hd, if_false, Nat.digits_add_two_add_one]

theorem lsDigits_last (base x : Nat) (hb : 2 ≤ base) (hd : x / base = 0) :
    lsDigits base x = [x % base] := by
  have hlt : x < base := by
    exact (Nat.div_eq_zero_iff (by omega)).mp hd
  unfold lsDigits
  split
  · subst x; simp
  · rename_i hx
    rw [Nat.digits_of_lt base x hx hlt, Nat.mod_eq_of_lt hlt]

theorem lsDigits_lt (base x : Nat) (hb : 2 ≤ base) : ∀ d ∈ lsDigits base x, d < base := by
  intro d hd
  unfold lsDigits at hd
  split at hd
  · simp at hd; omega
  · exact Nat.digits_lt_base (by omega) hd

theorem digitLoop_spec (base : Nat) (hb : 2 ≤ base) (hb16 : base ≤ 16) :
    ∀ (room x : Nat) (buf : List Nat) (i : Nat),
      (lsDigits base x).length ≤ room →
      i + (lsDigits base x).length ≤ buf.length →
      ∃ buf', digitLoop base room x buf i = some (buf', i + (lsDigits base x).length) ∧
        buf'.length = buf.length ∧
        buf'.take (i + (lsDigits base x).length) =
          buf.take i ++ (lsDigits base x).map digitChar := by
  intro room
  induction room with
  | zero =>
    intro x buf i h _
    have := lsDigits_length_pos base x
    omega
  | succ room ih =>
    intro x buf i hroom hlen
    have hpos := lsDigits_length_pos base x
    have hr : x % base < 16 := lt_of_lt_of_le (Nat.mod_lt _ (by omega)) hb16
    have hi : i < buf.length := by omega
    have hb0 : base ≠ 0 := by omega
    by_cases hd : x / base = 0
    · have hl := lsDigits_last base x hb hd
      refine ⟨buf.set i (digitChar (x % base)), ?_, by simp, ?_⟩
      · simp [digitLoop, hb0, digits_lookup hr, hi, hd, hl]
      · rw [hl]
        simpa using take_succ_set (digitChar (x % base)) hi
    · have hl := lsDigits_step base x hb hd
      rw [hl] at hroom hlen ⊢
      simp only [List.length_cons] at hroom hlen ⊢
      obtain ⟨buf', h1, h2, h3⟩ := ih (x / base) (buf.set i (digitChar (x % base))) (i + 1)
        (by omega) (by simp; omega)
      refine ⟨buf', ?_, by simpa using h2, ?_⟩
      · simp only [digitLoop, hb0, digits_lookup hr, hi, if_true, if_false]
        simp only [ne_eq, hd, not_false_eq_true, if_true]
        rw [h1]
        congr 2
        omega
      · have e : i + ((lsDigits base (x / base)).length + 1) =
            i + 1 + (lsDigits base (x / base)).length := by omega
        rw [e, h3, take_succ_set _ hi]
        simp

theorem emitLoop_spec (fd : Int) :
    ∀ (i : Nat) (buf : List Nat), i ≤ buf.length →
      emitLoop fd i buf = some ((buf.take i).reverse.map (fun c => (fd, c % 256))) := by
  intro i
  induction i with
  | zero => intro buf _; simp [emitLoop]
  | succ i ih =>
    intro buf h
    have hi : i < buf.length := by omega
    have hset := ih (buf.set i 0) (by simp; omega)
    rw [take_set_self] at hset
    have ht : buf.take (i + 1) = buf.take i ++ [buf[i]] := by
      rw [List.take_succ, List.getElem?_eq_getElem hi]
      rfl
    simp only [emitLoop, List.getElem?_eq_getElem hi, hset, putc, ht, List.reverse_append,
      List.reverse_cons, List.reverse_nil, List.map_cons, List.map_append, List.nil_append,
      List.cons_append, List.singleton_append]

theorem toU32_lt (z : Int) : toU32 z < 2 ^ 32 := by
  unfold toU32
  have h1 : 0 ≤ z % 2 ^ 32 := Int.emod_nonneg _ (by norm_num)
  have h2 : z % 2 ^ 32 < 2 ^ 32 := Int.emod_lt_of_pos _ (by norm_num)
  omega

theorem lsDigits_length_le (base x : Nat) (hb : base = 10 ∨ base = 16) (hx : x < 2 ^ 32) :
    (lsDigits base x).length ≤ 10 := by
  unfold lsDigits
  split
  · simp
  · rename_i hx0
    by_contra hlen
    have h11 : 11 ≤ (Nat.digits base x).length := by omega
    rcases hb with rfl | rfl
    · have h1 := Nat.base_pow_length_digits_le 10 x (by norm_num) hx0
      have h2 : 10 ^ 11 ≤ 10 ^ (Nat.digits 10 x).length := Nat.pow_le_pow_right (by norm_num) h11
      norm_num at hx h2
      omega
    · have h1 := Nat.base_pow_length_digits_le 16 x (by norm_num) hx0
      have h2 : 16 ^ 11 ≤ 16 ^ (Nat.digits 16 x).length := Nat.pow_le_pow_right (by norm_num) h11
      norm_num at hx h2
      omega

/-- Closed form of `printint` for the two bases `vprintf` uses: the optional
sign, then the digits of the magnitude, most significant first. -/
theorem printint_spec (fd : Int) (xx base sgn : Int) (hb : toU32 base = 10 ∨ toU32 base = 16) :
    printint fd xx base sgn =
      some (((if sgn ≠ 0 ∧ xx < 0 then [45] else []) ++
        ((lsDigits (toU32 base)
          (if sgn ≠ 0 ∧ xx < 0 then toU32 (-xx) else toU32 xx)).reverse.map digitChar)).map
          (fun c => (fd, c))) := by
  set x : Nat := if sgn ≠ 0 ∧ xx < 0 then toU32 (-xx) else toU32 xx with hx
  have hx32 : x < 2 ^ 32 := by
    rw [hx]; split <;> exact toU32_lt _
  have hb2 : 2 ≤ toU32 base := by rcases hb with h | h <;> omega
  have hb16 : toU32 base ≤ 16 := by rcases hb with h | h <;> omega
  have hlen := lsDigits_length_le (toU32 base) x hb hx32
  obtain ⟨buf, h1, h2, h3⟩ := digitLoop_spec (toU32 base) hb2 hb16 16 x (List.replicate 16 0) 0
    (by omega) (by simp; omega)
  simp only [List.length_replicate, Nat.zero_add, List.take_zero, List.nil_append] at h1 h2 h3
  have hi : (lsDigits (toU32 base) x).length < buf.length := by omega
  have hchars : ∀ c ∈ (lsDigits (toU32 base) x).map digitChar, c % 256 = c := by
    intro c hc
    obtain ⟨d, hd, rfl⟩ := List.mem_map.mp hc
    exact digitChar_lt (lt_of_lt_of_le (lsDigits_lt _ _ hb2 d hd) hb16)
  have hmap : ((lsDigits (toU32 base) x).map digitChar).reverse.map (fun c => (fd, c % 256)) =
      ((lsDigits (toU32 base) x).map digitChar).reverse.map (fun c => (fd, c)) := by
    apply List.map_congr_left
    intro c hc
    rw [hchars c (List.mem_reverse.mp hc)]
  unfold printint
  simp only [← hx, h1, hi, if_true]
  by_cases hneg : sgn ≠ 0 ∧ xx < 0
  · rw [if_pos hneg, if_pos hneg, emitLoop_spec fd _ _ (by simp; omega), take_succ_set _ hi, h3]
    simp only [List.reverse_append, List.reverse_cons, List.reverse_nil, List.nil_append,
      List.map_append, List.map_cons, List.map_nil, List.singleton_append, List.cons_append]
    rw [hmap]
    simp [List.map_reverse]
  · rw [if_neg hneg, if_neg hneg, Nat.add_zero, emitLoop_spec fd _ _ (by simp; omega),
      take_set_self, h3, hmap]
    simp [List.map_reverse]

theorem toInt32_of_low (a : Nat) (v : Int) (hlo : -2 ^ 31 ≤ v) (hhi : v < 2 ^ 31)
    (ha : a % 2 ^ 32 = toU32 v) : toInt32 a = v := by
  unfold toInt32
  unfold toU32 at ha
  rw [ha]
  split <;> omega

theorem toU32_toInt32 (a : Nat) : toU32 (toInt32 a) = a % 2 ^ 32 := by
  unfold toInt32 toU32
  split <;> omega

theorem digitChar_hex {r : Nat} (h : r < 16) :
    digitChar r = if r < 10 then 48 + r else 65 + (r - 10) := by
  interval_cases r <;> decide

theorem lsDigits_render (base x : Nat) (f : Nat → Nat) (hf : ∀ d, d < base → digitChar d = f d)
    (hb : 2 ≤ base) :
    (lsDigits base x).reverse.map digitChar =
      if x = 0 then [48] else (Nat.digits base x).reverse.map f := by
  unfold lsDigits
  split
  · rfl
  · apply List.map_congr_left
    intro d hd
    exact hf d (Nat.digits_lt_base (by omega) (List.mem_reverse.mp hd))

theorem digitLoop_more_room (base : Nat) :
    ∀ (room k x : Nat) (buf : List Nat) (i : Nat) (res : List Nat × Nat),
      digitLoop base room x buf i = some res → digitLoop base (room + k) x buf i = some res := by
  intro room
  induction room with
  | zero => intro k x buf i res h; simp [digitLoop] at h
  | succ room ih =>
    intro k x buf i res h
    rw [Nat.add_right_comm]
    by_cases hb0 : base = 0
    · simp [digitLoop, hb0] at h
    · cases hd : digits[x % base]? with
      | none => simp [digitLoop, hb0, hd] at h
      | some c =>
        by_cases hi : i < buf.length
        · by_cases hx : x / base = 0
          · simp only [digitLoop, hb0, hd, hi, hx, if_true, if_false, ne_eq,
              not_true_eq_false] at h ⊢
            exact h
          · simp only [digitLoop, hb0, hd, hi, hx, if_true, if_false, ne_eq,
              not_false_eq_true] at h ⊢
            exact ih k _ _ _ _ h
        · simp [digitLoop, hb0, hd, hi] at h

/-- The digit loop of `printint` for the bases 10 and 16 and any 32-bit
magnitude: it ends within 10 iterations, inside the buffer. -/
theorem digitLoop_printint (base x : Nat) (hb : base = 10 ∨ base = 16) (hx : x < 2 ^ 32) :
    ∃ buf i, digitLoop base 10 x (List.replicate 16 0) 0 = some (buf, i) ∧
      digitLoop base 16 x (List.replicate 16 0) 0 = some (buf, i) ∧
      buf.length = 16 ∧ 1 ≤ i ∧ i ≤ 10 := by
  have hb2 : 2 ≤ base := by rcases hb with h | h <;> omega
  have hb16 : base ≤ 16 := by rcases hb with h | h <;> omega
  have hlen := lsDigits_length_le base x hb hx
  have hpos := lsDigits_length_pos base x
  obtain ⟨buf, h1, h2, _⟩ := digitLoop_spec base hb2 hb16 10 x (List.replicate 16 0) 0
    hlen (by simp; omega)
  simp only [List.length_replicate, Nat.zero_add] at h1 h2
  exact ⟨buf, _, h1, digitLoop_more_room base 10 6 x _ 0 _ h1, h2, hpos, hlen⟩

theorem digitChar_ne_minus {r : Nat} (h : r < 16) : digitChar r ≠ 45 := by
  interval_cases r <;> decide

theorem printint_magnitude_lt (xx sgn : Int) :
    (if sgn ≠ 0 ∧ xx < 0 then toU32 (-xx) else toU32 xx) < 2 ^ 32 := by
  split <;> exact toU32_lt _

/-! ## The pointer encoder -/

theorem nibble_shift (x k : Nat) (hk : k < 16) (hx : x < 2 ^ 64) :
    (x * 16 ^ k % 2 ^ 64) >>> 60 = (x >>> (60 - 4 * k)) % 16 := by
  simp only [Nat.shiftRight_eq_div_pow]
  interval_cases k <;> norm_num <;> omega

theorem nibbles_read_back (a : Nat) (ha : a < 2 ^ 64) :
    Nat.ofDigits 16 ((List.range 16).map (fun k => (a >>> (60 - 4 * k)) % 16)).reverse = a := by
  simp only [Nat.shiftRight_eq_div_pow]
  norm_num [List.range_succ, Nat.ofDigits]
  omega

theorem printptrLoop_spec (fd : Int) :
    ∀ (n x : Nat), x < 2 ^ 64 →
      printptrLoop fd n x =
        some ((List.range n).map (fun k => (fd, digitChar ((x * 16 ^ k % 2 ^ 64) >>> 60)))) := by
  intro n
  induction n with
  | zero => intro x _; simp [printptrLoop]
  | succ n ih =>
    intro x hx
    have htop : x >>> 60 < 16 := by
      rw [Nat.shiftRight_eq_div_pow]
      omega
    have hnext : (x <<< 4) % 2 ^ 64 < 2 ^ 64 := Nat.mod_lt _ (by norm_num)
    have hsh : x <<< 4 = x * 16 := by
      rw [Nat.shiftLeft_eq]
    have hiter : ∀ k, (x <<< 4) % 2 ^ 64 * 16 ^ k % 2 ^ 64 = x * 16 ^ (k + 1) % 2 ^ 64 := by
      intro k
      have e : 16 * 16 ^ k = 16 ^ (k + 1) := by rw [Nat.pow_succ, Nat.mul_comm]
      rw [hsh, Nat.mod_mul_mod, Nat.mul_assoc, e]
    rw [printptrLoop, digits_lookup htop, ih _ hnext, List.range_succ_eq_map]
    simp only [putc, digitChar_lt htop, List.map_cons, List.map_map, List.singleton_append,
      pow_zero, Nat.mul_one, Nat.mod_eq_of_lt hx]
    congr 2
    apply List.map_congr_left
    intro k _
    simp only [Function.comp, Nat.succ_eq_add_one, hiter]

/-- Closed form of `printptr`: `0x`, then the sixteen nibbles of the address,
most significant first. -/
theorem printptr_spec (fd : Int) (a : Nat) (ha : a < 2 ^ 64) :
    printptr fd a =
      some ((48 :: 120 :: (List.range 16).map
        (fun k => digitChar ((a >>> (60 - 4 * k)) % 16))).map (fun c => (fd, c))) := by
  have e48 : (48 : Nat) % 256 = 48 := by decide
  have e120 : (120 : Nat) % 256 = 120 := by decide
  unfold printptr
  simp only [Nat.mod_eq_of_lt ha, printptrLoop_spec fd 16 a ha, putc, List.map_cons,
    List.map_map, List.cons_append, List.nil_append, e48, e120]
  congr 3
  apply List.map_congr_left
  intro k hk
  have hk16 : k < 16 := List.mem_range.mp hk
  simp only [Function.comp, nibble_shift a k hk16 ha]

/-! ## The string emitter -/

theorem putsLoop_spec (fd : Int) (s tail : List Nat) (hs : ∀ b ∈ s, 0 < b ∧ b < 256) :
    putsLoop fd (s ++ 0 :: tail) = some (s.map (fun b => (fd, b))) := by
  induction s with
  | nil => simp [putsLoop]
  | cons b bs ih =>
    have hb := hs b (List.mem_cons_self b bs)
    have hmod : b % 256 = b := Nat.mod_eq_of_lt hb.2
    have h0 : b % 256 ≠ 0 := by omega
    have hrec := ih (fun c hc => hs c (List.mem_cons_of_mem b hc))
    have hb0 : b ≠ 0 := by omega
    rw [List.cons_append, putsLoop, if_pos h0, hrec]
    simp [putc, hmod]

/-! ## The specifiers -/

theorem vprintfLoop_cons (mem : List Nat) (fd : Int) (b : Nat) (rest : List Nat) (st : Scan)
    (hb : b % 256 ≠ 0) :
    vprintfLoop mem fd (b :: rest) st =
      (step mem fd st (b % 256)).bind (vprintfLoop mem fd rest) := by
  rw [vprintfLoop, if_pos hb]
  cases step mem fd st (b % 256) <;> rfl

theorem vprintfLoop_end (mem : List Nat) (fd : Int) (rest : List Nat) (st : Scan) :
    vprintfLoop mem fd (0 :: rest) st = some st := by
  simp [vprintfLoop]

theorem step_percent (mem : List Nat) (fd : Int) (out : List Write) (ap : List Nat) :
    step mem fd ⟨out, ap, 0⟩ 37 = some ⟨out, ap, 37⟩ := by
  simp [step]

/-- A format made of one conversion `%c` is resolved by one pass through the
body of the loop in the state `'%'`. -/
theorem vprintf_conv (mem : List Nat) (fd : Int) (c : Nat) (rest ap : List Nat)
    (hc0 : c % 256 ≠ 0) :
    vprintf mem fd (37 :: c :: 0 :: rest) ap = step mem fd ⟨[], ap, 37⟩ (c % 256) := by
  unfold vprintf
  rw [vprintfLoop_cons mem fd 37 _ _ (by decide)]
  have e : (37 : Nat) % 256 = 37 := by decide
  rw [e, step_percent, Option.some_bind, vprintfLoop_cons mem fd c _ _ hc0]
  cases step mem fd ⟨[], ap, 37⟩ (c % 256) with
  | none => rfl
  | some st => simp [vprintfLoop_end]

/-- C1: for every signed 32-bit integer `v` (`-2^31` included) and every
argument slot whose low 32 bits hold `v`, `vprintf` with the format `"%d"`
emits a `-` exactly when `v < 0`, then the decimal digits of `|v|` without
leading zeros, the single digit `0` for `v = 0`; it consumes that one slot. -/
theorem vprintf_d_signed_decimal (mem : List Nat) (fd : Int) (rest ap : List Nat) (a : Nat)
    (v : Int) (hlo : -2 ^ 31 ≤ v) (hhi : v < 2 ^ 31) (ha : a % 2 ^ 32 = toU32 v) :
    vprintf mem fd (37 :: 100 :: 0 :: rest) (a :: ap) =
      some ⟨((if v < 0 then [45] else []) ++
              (if v = 0 then [48]
               else (Nat.digits 10 v.natAbs).reverse.map (fun d => 48 + d))).map
                (fun c => (fd, c)), ap, 0⟩ := by
  have hv := toInt32_of_low a v hlo hhi ha
  have hmag : (if (1 : Int) ≠ 0 ∧ v < 0 then toU32 (-v) else toU32 v) = v.natAbs := by
    unfold toU32
    split <;> omega
  rw [vprintf_conv mem fd 100 rest (a :: ap) (by decide)]
  simp only [step, Nat.reduceMod, hv]
  rw [printint_spec fd v 10 1 (by decide), hmag]
  rw [lsDigits_render (toU32 10) v.natAbs (fun d => 48 + d)
    (fun d hd => by rw [digitChar_dec hd, Nat.add_comm]) (by decide)]
  have h0 : v.natAbs = 0 ↔ v = 0 := Int.natAbs_eq_zero
  have e10 : toU32 10 = 10 := by decide
  simp [resolve, h0, e10]

/-- Witness of C1 at `v = -2^31`: the output is `-2147483648`. -/
theorem vprintf_d_signed_decimal_witness :
    vprintf [] 1 [37, 100, 0] [2 ^ 64 - 2 ^ 31] =
      some ⟨[(1, 45), (1, 50), (1, 49), (1, 52), (1, 55), (1, 52), (1, 56), (1, 51), (1, 54),
        (1, 52), (1, 56)], [], 0⟩ :=
  (vprintf_d_signed_decimal [] 1 [] [] (2 ^ 64 - 2 ^ 31) (-2 ^ 31) (by decide) (by decide)
    (by decide)).trans (by norm_num)

/-- C2: for every integer `v` and every argument slot whose low 32 bits hold
the bit pattern of `v`, `vprintf` with the format `"%x"` emits the uppercase
hexadecimal digits of `v mod 2^32` without leading zeros and without sign, the
single digit `0` when that value is zero; it consumes that one slot. -/
theorem vprintf_x_unsigned_hex (mem : List Nat) (fd : Int) (rest ap : List Nat) (a : Nat)
    (v : Int) (ha : a % 2 ^ 32 = (v % 2 ^ 32).toNat) :
    vprintf mem fd (37 :: 120 :: 0 :: rest) (a :: ap) =
      some ⟨(if (v % 2 ^ 32).toNat = 0 then [48]
             else (Nat.digits 16 (v % 2 ^ 32).toNat).reverse.map
               (fun d => if d < 10 then 48 + d else 65 + (d - 10))).map
                (fun c => (fd, c)), ap, 0⟩ := by
  rw [vprintf_conv mem fd 120 rest (a :: ap) (by decide)]
  simp only [step, Nat.reduceMod]
  rw [printint_spec fd (toInt32 a) 16 0 (by decide)]
  have e16 : toU32 16 = 16 := by decide
  simp only [ne_eq, not_true_eq_false, false_and, if_false, List.nil_append, toU32_toInt32, ha,
    e16]
  rw [lsDigits_render 16 _ (fun d => if d < 10 then 48 + d else 65 + (d - 10))
    (fun d hd => digitChar_hex hd) (by decide)]
  simp [resolve]

/-- Witness of C2 at `v = -1`, whose bit pattern prints as `FFFFFFFF`. -/
theorem vprintf_x_unsigned_hex_witness :
    vprintf [] 1 [37, 120, 0] [2 ^ 64 - 1] =
      some ⟨[(1, 70), (1, 70), (1, 70), (1, 70), (1, 70), (1, 70), (1, 70), (1, 70)], [], 0⟩ :=
  (vprintf_x_unsigned_hex [] 1 [] [] (2 ^ 64 - 1) (-1) (by decide)).trans
    (by
      have e : ((-1 : Int) % 2 ^ 32).toNat = 4294967295 := by decide
      rw [e]
      norm_num)

/-- C3, evaluated at the argument `2^32`: `vprintf` with the format `"%l"`
emits the single digit `0`, which is not the decimal digit sequence
`4294967296` of the 64-bit value. -/
theorem vprintf_l_at_two_pow_32 :
    vprintf [] 1 [37, 108, 0] [2 ^ 32] = some ⟨[(1, 48)], [], 0⟩ ∧
      [((1 : Int), 48)] ≠
        [52, 50, 57, 52, 57, 54, 55, 50, 57, 54].map (fun c => ((1 : Int), c)) ∧
      (Nat.digits 10 (2 ^ 32)).reverse.map (fun d => 48 + d) =
        [52, 50, 57, 52, 57, 54, 55, 50, 57, 54] := by
  refine ⟨by decide, by decide, by norm_num⟩

/-- C4: for every argument slot `a`, `vprintf` with the format `"%p"` emits
exactly 18 bytes, `0` and `x` followed by exactly 16 characters of
`0123456789ABCDEF`, whatever the magnitude of the address; it consumes that one
slot. -/
theorem vprintf_p_eighteen_bytes (mem : List Nat) (fd : Int) (rest ap : List Nat) (a : Nat) :
    ∃ ds : List Nat,
      vprintf mem fd (37 :: 112 :: 0 :: rest) (a :: ap) =
        some ⟨(48 :: 120 :: ds).map (fun c => (fd, c)), ap, 0⟩ ∧
      ds.length = 16 ∧ (48 :: 120 :: ds).length = 18 ∧
      ∀ c ∈ ds, c ∈ digits.take 16 := by
  have ha : a % 2 ^ 64 < 2 ^ 64 := Nat.mod_lt _ (by norm_num)
  refine ⟨(List.range 16).map (fun k => digitChar (((a % 2 ^ 64) >>> (60 - 4 * k)) % 16)),
    ?_, by simp, by simp, ?_⟩
  · rw [vprintf_conv mem fd 112 rest (a :: ap) (by decide)]
    simp only [step, Nat.reduceMod]
    rw [printptr_spec fd _ ha]
    simp [resolve]
  · intro c hc
    obtain ⟨k, _, rfl⟩ := List.mem_map.mp hc
    have hn : ((a % 2 ^ 64) >>> (60 - 4 * k)) % 16 < 16 := Nat.mod_lt _ (by norm_num)
    generalize ((a % 2 ^ 64) >>> (60 - 4 * k)) % 16 = r at hn
    interval_cases r <;> decide

/-- C5: for every 64-bit address `a`, `printptr` emits `0x` and then, as its
`k`-th digit (`k = 0..15`), the character of the table `digits` for
`(a >> (60 - 4k)) mod 16`; these sixteen nibbles, read most significant first
as a base-16 number, give back `a`. -/
theorem printptr_nibbles_msb_first (fd : Int) (a : Nat) (ha : a < 2 ^ 64) :
    printptr fd a =
        some ((48 :: 120 :: (List.range 16).map
          (fun k => digits.getD ((a >>> (60 - 4 * k)) % 16) 0)).map (fun c => (fd, c))) ∧
      Nat.ofDigits 16 ((List.range 16).map (fun k => (a >>> (60 - 4 * k)) % 16)).reverse = a :=
  ⟨printptr_spec fd a ha, nibbles_read_back a ha⟩

/-- Witness of C5 at the address `0x1000`: the output is `0x0000000000001000`. -/
theorem printptr_nibbles_msb_first_witness :
    printptr 1 4096 =
        some ([48, 120, 48, 48, 48, 48, 48, 48, 48, 48, 48, 48, 48, 48, 49, 48, 48, 48].map
          (fun c => ((1 : Int), c))) ∧
      Nat.ofDigits 16 ((List.range 16).map (fun k => (4096 >>> (60 - 4 * k)) % 16)).reverse =
        4096 :=
  ⟨(printptr_nibbles_msb_first 1 4096 (by decide)).1.trans (by decide),
    (printptr_nibbles_msb_first 1 4096 (by decide)).2⟩

/-- C6: `vprintf` with the format `"%s"` and a null pointer argument emits
exactly the six bytes `(null)` and nothing else; it consumes that one slot. -/
theorem vprintf_s_null (mem : List Nat) (fd : Int) (rest ap : List Nat) :
    vprintf mem fd (37 :: 115 :: 0 :: rest) (0 :: ap) =
      some ⟨[40, 110, 117, 108, 108, 41].map (fun c => (fd, c)), ap, 0⟩ := by
  rw [vprintf_conv mem fd 115 rest (0 :: ap) (by decide)]
  simp [step, resolve, nullStr, putsLoop, putc]

/-- C7: for every non-null pointer `p` to a zero-terminated byte string `s`
(the memory from `p` on holds the non-zero bytes `s`, then a zero byte),
`vprintf` with the format `"%s"` emits exactly the bytes of `s`, in order and
unmodified, nothing for the empty string, and not the terminator; it consumes
that one slot. -/
theorem vprintf_s_bytes (mem : List Nat) (fd : Int) (rest ap : List Nat) (p : Nat)
    (s tail : List Nat) (hp0 : 0 < p) (hp : p < 2 ^ 64)
    (hs : ∀ b ∈ s, 0 < b ∧ b < 256) (hmem : mem.drop p = s ++ 0 :: tail) :
    vprintf mem fd (37 :: 115 :: 0 :: rest) (p :: ap) =
      some ⟨s.map (fun b => (fd, b)), ap, 0⟩ := by
  have hpm : p % 2 ^ 64 = p := Nat.mod_eq_of_lt hp
  have hne : p ≠ 0 := by omega
  rw [vprintf_conv mem fd 115 rest (p :: ap) (by decide)]
  simp only [step, Nat.reduceMod, hpm, hne, if_false, hmem, putsLoop_spec fd s tail hs]
  simp [resolve]

/-- Witness of C7: the string `hi` stored at address 3. -/
theorem vprintf_s_bytes_witness :
    vprintf [0, 0, 0, 104, 105, 0, 7] 1 [37, 115, 0] [3] =
      some ⟨[(1, 104), (1, 105)], [], 0⟩ :=
  vprintf_s_bytes [0, 0, 0, 104, 105, 0, 7] 1 [] [] 3 [104, 105] [7] (by decide) (by decide)
    (by decide) (by decide)

/-- C8: for every argument slot `a`, `vprintf` with the format `"%c"` emits
exactly one byte, the low 8 bits of `a`; it consumes that one slot. -/
theorem vprintf_c_one_byte (mem : List Nat) (fd : Int) (rest ap : List Nat) (a : Nat) :
    vprintf mem fd (37 :: 99 :: 0 :: rest) (a :: ap) = some ⟨[(fd, a % 256)], ap, 0⟩ := by
  have e : a % 4294967296 % 256 = a % 256 := by omega
  rw [vprintf_conv mem fd 99 rest (a :: ap) (by decide)]
  simp only [step, Nat.reduceMod]
  simp [resolve, putc, e]

/-- C9: `vprintf` with the format `"%%"` emits exactly one `%` byte and, for
every argument list, leaves the argument cursor where it was. -/
theorem vprintf_percent_percent (mem : List Nat) (fd : Int) (rest ap : List Nat) :
    vprintf mem fd (37 :: 37 :: 0 :: rest) ap = some ⟨[(fd, 37)], ap, 0⟩ := by
  rw [vprintf_conv mem fd 37 rest ap (by decide)]
  simp [step, resolve, putc]

/-- C10: for every non-zero byte `b` other than `d`, `l`, `x`, `p`, `s`, `c`
and `%`, `vprintf` with the two-byte format `%` `b` emits exactly the two
bytes `%` and `b` and, for every argument list, leaves the argument cursor
where it was. -/
theorem vprintf_unknown_specifier (mem : List Nat) (fd : Int) (rest ap : List Nat) (b : Nat)
    (hb0 : b ≠ 0) (hb : b < 256) (hd : b ≠ 100) (hl : b ≠ 108) (hx : b ≠ 120) (hp : b ≠ 112)
    (hs : b ≠ 115) (hc : b ≠ 99) (hpc : b ≠ 37) :
    vprintf mem fd (37 :: b :: 0 :: rest) ap = some ⟨[(fd, 37), (fd, b)], ap, 0⟩ := by
  have hmod : b % 256 = b := Nat.mod_eq_of_lt hb
  rw [vprintf_conv mem fd b rest ap (by omega), hmod]
  simp [step, resolve, putc, hd, hl, hx, hp, hs, hc, hpc, hmod]

/-- Witness of C10 at `b = 'q'`: the format `"%q"` prints `%q`. -/
theorem vprintf_unknown_specifier_witness :
    vprintf [] 1 [37, 113, 0] [5] = some ⟨[(1, 37), (1, 113)], [5], 0⟩ :=
  vprintf_unknown_specifier [] 1 [] [5] 113 (by decide) (by decide) (by decide) (by decide)
    (by decide) (by decide) (by decide) (by decide) (by decide)

/-! ## The scan over a whole format -/

theorem resolve_eq_map (st : Scan) (ap : List Nat) (w : Option (List Write)) :
    resolve st ap w = w.map (fun ws => ⟨st.out ++ ws, ap, 0⟩) := by
  cases w <;> rfl

/-- The requests already issued do not influence the body of the loop: it
appends to them. -/
theorem step_out (mem : List Nat) (fd : Int) (out : List Write) (ap : List Nat) (s c : Nat) :
    step mem fd ⟨out, ap, s⟩ c =
      (step mem fd ⟨[], ap, s⟩ c).map (fun st => ⟨out ++ st.out, st.ap, st.state⟩) := by
  by_cases h0 : s = 0
  · by_cases hc : c = 37 <;> simp [step, h0, hc]
  · by_cases h37 : s = 37
    · subst h37
      simp only [step, resolve_eq_map]
      cases ap <;> simp only [h0, if_false, if_true] <;> split_ifs <;>
        simp [Option.map_map, Function.comp_def]
    · simp [step, h0, h37]

theorem vprintfLoop_out (mem : List Nat) (fd : Int) (t : List Nat) (out : List Write)
    (ap : List Nat) (s : Nat) :
    vprintfLoop mem fd t ⟨out, ap, s⟩ =
      (vprintfLoop mem fd t ⟨[], ap, s⟩).map (fun st => ⟨out ++ st.out, st.ap, st.state⟩) := by
  induction t generalizing out ap s with
  | nil => simp [vprintfLoop]
  | cons b t ih =>
    by_cases hb : b % 256 ≠ 0
    · rw [vprintfLoop_cons mem fd b t _ hb, vprintfLoop_cons mem fd b t _ hb, step_out]
      cases step mem fd ⟨[], ap, s⟩ (b % 256) with
      | none => rfl
      | some st1 =>
        obtain ⟨o1, a1, s1⟩ := st1
        simp only [Option.map_some', Option.some_bind]
        rw [ih (out ++ o1) a1 s1, ih o1 a1 s1]
        cases vprintfLoop mem fd t ⟨[], a1, s1⟩ <;> simp
    · simp [vprintfLoop, hb]

/-- Scanning `f ++ t`, where `f` holds no zero byte, is scanning `f` up to a
terminator and then `t` from the state reached. -/
theorem vprintfLoop_append (mem : List Nat) (fd : Int) (f t r : List Nat)
    (hf : ∀ b ∈ f, b % 256 ≠ 0) (st : Scan) :
    vprintfLoop mem fd (f ++ t) st =
      (vprintfLoop mem fd (f ++ 0 :: r) st).bind (fun st1 => vprintfLoop mem fd t st1) := by
  induction f generalizing st with
  | nil => simp [vprintfLoop_end]
  | cons b f ih =>
    have hb := hf b (List.mem_cons_self b f)
    have hf2 : ∀ c ∈ f, c % 256 ≠ 0 := fun c hc => hf c (List.mem_cons_of_mem b hc)
    rw [List.cons_append, List.cons_append, vprintfLoop_cons mem fd b _ _ hb,
      vprintfLoop_cons mem fd b _ _ hb]
    cases step mem fd st (b % 256) with
    | none => rfl
    | some st1 => simp only [Option.some_bind, ih hf2 st1]

theorem vprintfLoop_literal (mem : List Nat) (fd : Int) (f r : List Nat)
    (hf : ∀ b ∈ f, 0 < b ∧ b < 256 ∧ b ≠ 37) (out : List Write) (ap : List Nat) :
    vprintfLoop mem fd (f ++ 0 :: r) ⟨out, ap, 0⟩ =
      some ⟨out ++ f.map (fun b => (fd, b)), ap, 0⟩ := by
  induction f generalizing out with
  | nil => simp [vprintfLoop_end]
  | cons b f ih =>
    obtain ⟨h0, h256, h37⟩ := hf b (List.mem_cons_self b f)
    have hmod : b % 256 = b := Nat.mod_eq_of_lt h256
    have hf2 : ∀ c ∈ f, 0 < c ∧ c < 256 ∧ c ≠ 37 := fun c hc => hf c (List.mem_cons_of_mem b hc)
    rw [List.cons_append, vprintfLoop_cons mem fd b _ _ (by omega), hmod]
    have hstep : step mem fd ⟨out, ap, 0⟩ b = some ⟨out ++ [(fd, b)], ap, 0⟩ := by
      simp [step, h37, putc, hmod]
    rw [hstep, Option.some_bind, ih hf2]
    simp

theorem step_state_literal (mem : List Nat) (fd : Int) (st st1 : Scan) (c : Nat)
    (h0 : st.state = 0) (h : step mem fd st c = some st1) :
    st1.state = if c = 37 then 37 else 0 := by
  by_cases hc : c = 37
  · simp [step, h0, hc] at h
    subst h
    simp [hc]
  · simp [step, h0, hc] at h
    subst h
    simp [hc, h0]

/-- In the state `'%'` the body of the loop is one of the `resolve` branches
(a failed `va_arg` being `resolve` on no output). -/
theorem step_pending_form (mem : List Nat) (fd : Int) (o : List Write) (ap : List Nat)
    (c : Nat) :
    ∃ ap1 w, step mem fd ⟨o, ap, 37⟩ c = resolve ⟨o, ap, 37⟩ ap1 w := by
  have hn : ∀ ap1, (none : Option Scan) = resolve ⟨o, ap, 37⟩ ap1 none := fun _ => rfl
  have h0 : ¬ (37 : Nat) = 0 := by decide
  unfold step
  rw [if_neg h0, if_pos rfl]
  cases ap with
  | nil => split_ifs <;> first | exact ⟨_, _, rfl⟩ | exact ⟨[], none, rfl⟩
  | cons a ap => split_ifs <;> exact ⟨_, _, rfl⟩

theorem step_state_pending (mem : List Nat) (fd : Int) (st st1 : Scan) (c : Nat)
    (h37 : st.state = 37) (h : step mem fd st c = some st1) : st1.state = 0 := by
  obtain ⟨o, ap, s⟩ := st
  simp only at h37
  subst h37
  obtain ⟨ap1, w, hw⟩ := step_pending_form mem fd o ap c
  rw [hw] at h
  cases w with
  | none => simp [resolve] at h
  | some ws =>
    simp only [resolve, Option.some.injEq] at h
    subst h
    rfl

theorem vprintfLoop_state (mem : List Nat) (fd : Int) (t : List Nat) (st st1 : Scan)
    (hs : st.state = 0 ∨ st.state = 37) (h : vprintfLoop mem fd t st = some st1) :
    st1.state = 0 ∨ st1.state = 37 := by
  induction t generalizing st with
  | nil => simp [vprintfLoop] at h
  | cons b t ih =>
    by_cases hb : b % 256 ≠ 0
    · rw [vprintfLoop_cons mem fd b t _ hb] at h
      cases hstep : step mem fd st (b % 256) with
      | none => simp [hstep] at h
      | some st2 =>
        rw [hstep, Option.some_bind] at h
        refine ih st2 ?_ h
        rcases hs with h0 | h37
        · have := step_state_literal mem fd st st2 _ h0 hstep
          by_cases hc : b % 256 = 37
          · right; simpa [hc] using this
          · left; simpa [hc] using this
        · left
          exact step_state_pending mem fd st st2 _ h37 hstep
    · simp only [vprintfLoop, hb, if_false] at h
      cases h
      exact hs

/-- Processing one more non-zero byte `b` after the prefix `pre`: the state of
the longer run is the body of the loop applied to the state of the shorter. -/
theorem vprintf_snoc (mem : List Nat) (fd : Int) (pre r r1 ap : List Nat) (b : Nat)
    (hpre : ∀ c ∈ pre, c % 256 ≠ 0) (hb : b % 256 ≠ 0) :
    vprintf mem fd (pre ++ b :: 0 :: r1) ap =
      (vprintf mem fd (pre ++ 0 :: r) ap).bind (fun st1 => step mem fd st1 (b % 256)) := by
  unfold vprintf
  rw [vprintfLoop_append mem fd pre (b :: 0 :: r1) r hpre]
  congr 1
  funext st1
  rw [vprintfLoop_cons mem fd b _ _ hb]
  cases step mem fd st1 (b % 256) with
  | none => rfl
  | some st2 => simp [vprintfLoop_end]

/-- C11: for every format string with no `%` byte (non-zero bytes `f`, then the
terminator), `vprintf` emits exactly the bytes of `f`, in order and unmodified,
bytes from `0x80` on included, and leaves the argument list as it was. -/
theorem vprintf_literal_verbatim (mem : List Nat) (fd : Int) (f r ap : List Nat)
    (hf : ∀ b ∈ f, 0 < b ∧ b < 256 ∧ b ≠ 37) :
    vprintf mem fd (f ++ 0 :: r) ap = some ⟨f.map (fun b => (fd, b)), ap, 0⟩ := by
  unfold vprintf
  rw [vprintfLoop_literal mem fd f r hf [] ap]
  simp

/-- Witness of C11: the bytes `h`, `0xC8`, `i` with two arguments pending. -/
theorem vprintf_literal_verbatim_witness :
    vprintf [] 1 [104, 200, 105, 0, 9] [1, 2] =
      some ⟨[(1, 104), (1, 200), (1, 105)], [1, 2], 0⟩ :=
  vprintf_literal_verbatim [] 1 [104, 200, 105] [9] [1, 2] (by decide)

/-- C13: when the format ends right after a bare `%` read in Literal state,
nothing further is emitted for that `%`: for every prefix `f` whose scan ends
in Literal state, the run on `f` followed by `%` has the output of the run on
`f`, has consumed the same arguments, and ends in the state `'%'`, whatever
bytes `r1` follow the terminator. -/
theorem vprintf_trailing_percent_silent (mem : List Nat) (fd : Int) (f r r1 ap : List Nat)
    (st1 : Scan) (hf : ∀ b ∈ f, b % 256 ≠ 0)
    (h1 : vprintf mem fd (f ++ 0 :: r) ap = some st1) (h0 : st1.state = 0) :
    vprintf mem fd (f ++ 37 :: 0 :: r1) ap = some ⟨st1.out, st1.ap, 37⟩ := by
  rw [vprintf_snoc mem fd f r r1 ap 37 hf (by decide), h1, Option.some_bind]
  obtain ⟨o, a, s⟩ := st1
  simp only at h0
  subst h0
  simp [step]

/-- Witness of C13: the format `a%` against the format `a`. -/
theorem vprintf_trailing_percent_silent_witness :
    vprintf [] 1 [97, 37, 0, 100] [5] = some ⟨[(1, 97)], [5], 37⟩ :=
  vprintf_trailing_percent_silent [] 1 [97] [] [100] [5] ⟨[(1, 97)], [5], 0⟩ (by decide)
    (by decide) rfl

/-- C14, refuted at the format `%`: `vprintf` returns with an empty output, so
no `%` byte is emitted for the trailing sequence. -/
theorem vprintf_trailing_percent_not_echoed :
    ∃ st, vprintf [] 1 [37, 0] [] = some st ∧ st.out = [] ∧ ((1 : Int), 37) ∉ st.out :=
  ⟨⟨[], [], 37⟩, by decide, rfl, by decide⟩

/-- C14 as amended: a format that ends right after a bare `%` is not fatal and
the `%` is dropped: whenever the format without that `%` is processed to its
end in Literal state, the format with it is processed to its end too, and the
output is the same, with no byte for the trailing `%`. -/
theorem vprintf_trailing_percent_dropped (mem : List Nat) (fd : Int) (f r r1 ap : List Nat)
    (st1 : Scan) (hf : ∀ b ∈ f, b % 256 ≠ 0)
    (h1 : vprintf mem fd (f ++ 0 :: r) ap = some st1) (h0 : st1.state = 0) :
    ∃ st2, vprintf mem fd (f ++ 37 :: 0 :: r1) ap = some st2 ∧ st2.out = st1.out := by
  refine ⟨⟨st1.out, st1.ap, 37⟩, ?_, rfl⟩
  rw [vprintf_snoc mem fd f r r1 ap 37 hf (by decide), h1, Option.some_bind]
  obtain ⟨o, a, s⟩ := st1
  simp only at h0
  subst h0
  simp [step]

/-- Witness of C14 as amended: the format `%q%` has the output of `%q`. -/
theorem vprintf_trailing_percent_dropped_witness :
    ∃ st2, vprintf [] 1 [37, 113, 37, 0] [] = some st2 ∧ st2.out = [(1, 37), (1, 113)] :=
  vprintf_trailing_percent_dropped [] 1 [37, 113] [] [] [] ⟨[(1, 37), (1, 113)], [], 0⟩
    (by decide) (by decide) rfl

/-- C18: the variable `state` only takes the values `0` (Literal) and `'%'`
(PendingSpecifier). After any prefix `pre` of non-zero bytes has been
processed the state is one of the two, and it is `0` when no byte has been
processed; after one more byte `b` it is `'%'` exactly when `b` is a `%` read in
state `0`, and it is `0` again after any byte read in state `'%'`. -/
theorem scan_state_two_valued (mem : List Nat) (fd : Int) (pre r r1 ap : List Nat) (b : Nat)
    (st1 st2 : Scan) (hpre : ∀ c ∈ pre, c % 256 ≠ 0) (hb : b % 256 ≠ 0)
    (h1 : vprintf mem fd (pre ++ 0 :: r) ap = some st1)
    (h2 : vprintf mem fd (pre ++ b :: 0 :: r1) ap = some st2) :
    (st1.state = 0 ∨ st1.state = 37) ∧ (pre = [] → st1.state = 0) ∧
      (st2.state = 0 ∨ st2.state = 37) ∧
      (st2.state = 37 ↔ st1.state = 0 ∧ b % 256 = 37) ∧
      (st1.state = 37 → st2.state = 0) := by
  have hs1 : st1.state = 0 ∨ st1.state = 37 :=
    vprintfLoop_state mem fd _ ⟨[], ap, 0⟩ st1 (Or.inl rfl) h1
  have hs2 : st2.state = 0 ∨ st2.state = 37 :=
    vprintfLoop_state mem fd _ ⟨[], ap, 0⟩ st2 (Or.inl rfl) h2
  rw [vprintf_snoc mem fd pre r r1 ap b hpre hb, h1, Option.some_bind] at h2
  refine ⟨hs1, ?_, hs2, ?_, fun h37 => step_state_pending mem fd st1 st2 _ h37 h2⟩
  · rintro rfl
    simp [vprintf, vprintfLoop_end] at h1
    subst h1
    rfl
  · rcases hs1 with h0 | h37
    · have := step_state_literal mem fd st1 st2 _ h0 h2
      by_cases hc : b % 256 = 37
      · simp [hc, h0, this]
      · simp [hc, this]
    · have := step_state_pending mem fd st1 st2 _ h37 h2
      simp [this, h37]

/-- Witness of C18: the prefix `a` followed by `%`. -/
theorem scan_state_two_valued_witness :
    vprintf [] 1 [97, 0] [] = some ⟨[(1, 97)], [], 0⟩ ∧
      vprintf [] 1 [97, 37, 0] [] = some ⟨[(1, 97)], [], 37⟩ ∧
      ((37 : Nat) = 37 ↔ (0 : Nat) = 0 ∧ 37 % 256 = 37) :=
  ⟨by decide, by decide,
    (scan_state_two_valued [] 1 [97] [] [] [] 37 ⟨[(1, 97)], [], 0⟩ ⟨[(1, 97)], [], 37⟩
      (by decide) (by decide) (by decide) (by decide)).2.2.2.1⟩

/-- C20: `vprintf` is compositional over concatenation. For `f1` without zero
byte whose scan ends in Literal state, the run on `f1 ++ f2` is the run on `f2`
against the arguments `f1` left, with the output of `f1` put in front. -/
theorem vprintf_append (mem : List Nat) (fd : Int) (f1 f2 r ap : List Nat) (st1 : Scan)
    (hf : ∀ b ∈ f1, b % 256 ≠ 0)
    (h1 : vprintf mem fd (f1 ++ 0 :: r) ap = some st1) (h0 : st1.state = 0) :
    vprintf mem fd (f1 ++ f2) ap =
      (vprintf mem fd f2 st1.ap).map (fun st2 => ⟨st1.out ++ st2.out, st2.ap, st2.state⟩) := by
  unfold vprintf at h1 ⊢
  rw [vprintfLoop_append mem fd f1 f2 r hf, h1, Option.some_bind]
  obtain ⟨o, a, s⟩ := st1
  simp only at h0
  subst h0
  exact vprintfLoop_out mem fd f2 o a 0

/-- Witness of C20: `x=%d` followed by `,%c` on the arguments 7 and 65. -/
theorem vprintf_append_witness :
    vprintf [] 1 ([120, 61, 37, 100] ++ [44, 37, 99, 0]) [7, 65] =
      (vprintf [] 1 [44, 37, 99, 0] [65]).map
        (fun st2 => ⟨[(1, 120), (1, 61), (1, 55)] ++ st2.out, st2.ap, st2.state⟩) :=
  vprintf_append [] 1 [120, 61, 37, 100] [44, 37, 99, 0] [] [7, 65]
    ⟨[(1, 120), (1, 61), (1, 55)], [65], 0⟩ (by decide) (by decide) rfl

/-- C16: the scratch buffer of `printint` is never indexed out of bounds.
For every `xx` and `sgn` and the bases 10 and 16, the digit loop ends within
10 iterations with `1 ≤ i ≤ 10` in a buffer of 16 cells, the store of `-`
is at the index `i ≤ 10`, the emission loop starts from `i + neg ≤ 11` and so
reads indices `0..10` only, and `printint` returns, no access having faulted. -/
theorem printint_buffer_in_bounds (fd xx base sgn : Int) (hb : base = 10 ∨ base = 16) :
    ∃ buf i,
      digitLoop (toU32 base) 10 (if sgn ≠ 0 ∧ xx < 0 then toU32 (-xx) else toU32 xx)
          (List.replicate 16 0) 0 = some (buf, i) ∧
        digitLoop (toU32 base) 16 (if sgn ≠ 0 ∧ xx < 0 then toU32 (-xx) else toU32 xx)
          (List.replicate 16 0) 0 = some (buf, i) ∧
        buf.length = 16 ∧ 1 ≤ i ∧ i ≤ 10 ∧
        i + (if sgn ≠ 0 ∧ xx < 0 then 1 else 0) ≤ 11 ∧
        printint fd xx base sgn =
          emitLoop fd (i + (if sgn ≠ 0 ∧ xx < 0 then 1 else 0)) (buf.set i 45) ∧
        (printint fd xx base sgn).isSome = true := by
  have hbu : toU32 base = 10 ∨ toU32 base = 16 := by
    rcases hb with rfl | rfl
    · left; decide
    · right; decide
  obtain ⟨buf, i, h10, h16, hlen, h1, hi⟩ :=
    digitLoop_printint (toU32 base) _ hbu (printint_magnitude_lt xx sgn)
  have hlt : i < buf.length := by omega
  refine ⟨buf, i, h10, h16, hlen, h1, hi, by split <;> omega, ?_, ?_⟩
  · simp only [printint, h16, hlt, if_true]
  · rw [printint_spec fd xx base sgn hbu]
    rfl

/-- Witness of C16 at `xx = -2^31`, base 10, signed: ten digits and the sign. -/
theorem printint_buffer_in_bounds_witness :
    ∃ buf i,
      digitLoop (toU32 10) 10
          (if (1 : Int) ≠ 0 ∧ (-2 ^ 31 : Int) < 0 then toU32 (-(-2 ^ 31)) else toU32 (-2 ^ 31))
          (List.replicate 16 0) 0 = some (buf, i) ∧
        digitLoop (toU32 10) 16
          (if (1 : Int) ≠ 0 ∧ (-2 ^ 31 : Int) < 0 then toU32 (-(-2 ^ 31)) else toU32 (-2 ^ 31))
          (List.replicate 16 0) 0 = some (buf, i) ∧
        buf.length = 16 ∧ 1 ≤ i ∧ i ≤ 10 ∧
        i + (if (1 : Int) ≠ 0 ∧ (-2 ^ 31 : Int) < 0 then 1 else 0) ≤ 11 ∧
        printint 1 (-2 ^ 31) 10 1 =
          emitLoop 1 (i + (if (1 : Int) ≠ 0 ∧ (-2 ^ 31 : Int) < 0 then 1 else 0))
            (buf.set i 45) ∧
        (printint 1 (-2 ^ 31) 10 1).isSome = true :=
  printint_buffer_in_bounds 1 (-2 ^ 31) 10 1 (Or.inl rfl)

/-- C17: for every `xx` and `sgn` and the bases 10 and 16, `printint` with its
unconditional store of `-` emits the same bytes as the branching version it
replaces, and a `-` is emitted exactly when `sgn` is non-zero and `xx < 0`. -/
theorem printint_branchless_equiv (fd xx base sgn : Int) (hb : base = 10 ∨ base = 16) :
    printint fd xx base sgn = printintBranching fd xx base sgn ∧
      ∃ out, printint fd xx base sgn = some out ∧
        ((fd, 45) ∈ out ↔ (sgn ≠ 0 ∧ xx < 0)) := by
  have hbu : toU32 base = 10 ∨ toU32 base = 16 := by
    rcases hb with rfl | rfl
    · left; decide
    · right; decide
  have hb2 : 2 ≤ toU32 base := by rcases hbu with h | h <;> omega
  have hb16 : toU32 base ≤ 16 := by rcases hbu with h | h <;> omega
  obtain ⟨buf, i, _, h16, hlen, h1, hi⟩ :=
    digitLoop_printint (toU32 base) _ hbu (printint_magnitude_lt xx sgn)
  have hlt : i < buf.length := by omega
  constructor
  · unfold printint printintBranching
    simp only [h16, hlt, if_true]
    by_cases hneg : sgn ≠ 0 ∧ xx < 0
    · simp only [if_pos hneg, ne_eq, one_ne_zero, not_false_eq_true, if_true]
    · simp only [if_neg hneg, ne_eq, not_true_eq_false, if_false, Nat.add_zero]
      rw [emitLoop_spec fd i _ (by simp; omega), emitLoop_spec fd i _ (by omega),
        take_set_self]
  · refine ⟨_, printint_spec fd xx base sgn hbu, ?_⟩
    have hno : (45 : Nat) ∉ (lsDigits (toU32 base)
        (if sgn ≠ 0 ∧ xx < 0 then toU32 (-xx) else toU32 xx)).reverse.map digitChar := by
      intro hmem
      obtain ⟨d, hd, hd45⟩ := List.mem_map.mp hmem
      exact digitChar_ne_minus
        (lt_of_lt_of_le (lsDigits_lt _ _ hb2 d (List.mem_reverse.mp hd)) hb16) hd45
    have hinj : ∀ l : List Nat, (fd, 45) ∈ l.map (fun c => (fd, c)) ↔ 45 ∈ l := by
      intro l
      simp [List.mem_map]
    rw [hinj, List.mem_append]
    by_cases hneg : sgn ≠ 0 ∧ xx < 0
    · simp only [if_pos hneg, List.mem_singleton, true_or, true_iff]
      exact hneg
    · simp only [if_neg hneg, List.not_mem_nil, false_or, iff_false_intro hneg, iff_false]
      simpa [if_neg hneg] using hno

/-- Witness of C17 at `xx = -123`, base 10, signed. -/
theorem printint_branchless_equiv_witness :
    printint 1 (-123) 10 1 = printintBranching 1 (-123) 10 1 ∧
      ∃ out, printint 1 (-123) 10 1 = some out ∧
        (((1 : Int), 45) ∈ out ↔ ((1 : Int) ≠ 0 ∧ (-123 : Int) < 0)) :=
  printint_branchless_equiv 1 (-123) 10 1 (Or.inl rfl)

/-- C19: the `%l` path narrows its argument to 32 bits. For every argument
slot `v`, `vprintf` with the format `"%l"` emits the decimal digits of
`v mod 2^32` without leading zeros (`0` when that is zero), so `v` and
`v + 2^32` give the same result, and there are at most 10 digits. -/
theorem vprintf_l_low_32_bits (mem : List Nat) (fd : Int) (rest ap : List Nat) (v : Nat) :
    vprintf mem fd (37 :: 108 :: 0 :: rest) (v :: ap) =
        some ⟨(if v % 2 ^ 32 = 0 then [48]
               else (Nat.digits 10 (v % 2 ^ 32)).reverse.map (fun d => 48 + d)).map
                (fun c => (fd, c)), ap, 0⟩ ∧
      vprintf mem fd (37 :: 108 :: 0 :: rest) ((v + 2 ^ 32) :: ap) =
        vprintf mem fd (37 :: 108 :: 0 :: rest) (v :: ap) ∧
      (Nat.digits 10 (v % 2 ^ 32)).length ≤ 10 := by
  have key : ∀ w : Nat, vprintf mem fd (37 :: 108 :: 0 :: rest) (w :: ap) =
      some ⟨(if w % 2 ^ 32 = 0 then [48]
             else (Nat.digits 10 (w % 2 ^ 32)).reverse.map (fun d => 48 + d)).map
              (fun c => (fd, c)), ap, 0⟩ := by
    intro w
    have e10 : toU32 10 = 10 := by decide
    have elow : w % 2 ^ 64 % 2 ^ 32 = w % 2 ^ 32 := by omega
    rw [vprintf_conv mem fd 108 rest (w :: ap) (by decide)]
    have hstep : step mem fd ⟨[], w :: ap, 37⟩ (108 % 256) =
        resolve ⟨[], w :: ap, 37⟩ ap (printint fd (toInt32 (w % 2 ^ 64)) 10 0) := by
      simp [step]
    rw [hstep, printint_spec fd _ 10 0 (by decide)]
    simp only [ne_eq, not_true_eq_false, false_and, if_false, List.nil_append, toU32_toInt32,
      e10, elow]
    rw [lsDigits_render 10 _ (fun d => 48 + d)
      (fun d hd => by rw [digitChar_dec hd, Nat.add_comm]) (by decide)]
    simp [resolve]
  have hsame : (v + 2 ^ 32) % 2 ^ 32 = v % 2 ^ 32 := by omega
  refine ⟨key v, ?_, ?_⟩
  · rw [key v, key (v + 2 ^ 32), hsame]
  · have h := lsDigits_length_le 10 (v % 2 ^ 32) (Or.inl rfl) (Nat.mod_lt _ (by norm_num))
    unfold lsDigits at h
    split at h
    · rename_i h0
      rw [h0]
      simp
    · exact h

/-! ## The sink -/

theorem issue_nil {σ : Type} (S : Sink σ) (w : World σ) : issue S w [] = w := rfl

theorem issue_append {σ : Type} (S : Sink σ) (w : World σ) (a b : List Write) :
    issue S w (a ++ b) = issue S (issue S w a) b := by
  simp [issue, List.foldl_append]

theorem putcOn_eq_issue {σ : Type} (S : Sink σ) (w : World σ) (fd : Int) (c : Nat) :
    putcOn S w fd c = issue S w (putc fd c) := rfl

theorem issue_reqs {σ : Type} (S : Sink σ) (w : World σ) (out : List Write) :
    (issue S w out).reqs = w.reqs ++ out.map (fun p => (p.1, [p.2])) := by
  induction out generalizing w with
  | nil => simp [issue]
  | cons p out ih =>
    have e : issue S w (p :: out) =
        issue S ⟨(S.write w.sink p.1 [p.2]).1, w.reqs ++ [(p.1, [p.2])]⟩ out := rfl
    rw [e, ih]
    simp

theorem emitLoopOn_eq {σ : Type} (S : Sink σ) (fd : Int) :
    ∀ (i : Nat) (buf : List Nat) (w : World σ),
      emitLoopOn S fd i buf w = (emitLoop fd i buf).map (issue S w) := by
  intro i
  induction i with
  | zero => intro buf w; simp [emitLoopOn, emitLoop, issue_nil]
  | succ i ih =>
    intro buf w
    cases hc : buf[i]? with
    | none => simp [emitLoopOn, emitLoop, hc]
    | some c =>
      simp only [emitLoopOn, emitLoop, hc, ih, putcOn_eq_issue]
      cases emitLoop fd i (buf.set i 0) with
      | none => rfl
      | some out => simp [issue_append]

theorem printintOn_eq {σ : Type} (S : Sink σ) (w : World σ) (fd xx base sgn : Int) :
    printintOn S w fd xx base sgn = (printint fd xx base sgn).map (issue S w) := by
  unfold printintOn printint
  simp only
  cases digitLoop (toU32 base) 16 (if sgn ≠ 0 ∧ xx < 0 then toU32 (-xx) else toU32 xx)
      (List.replicate 16 0) 0 with
  | none => rfl
  | some res =>
    obtain ⟨buf, i⟩ := res
    simp only
    split
    · exact emitLoopOn_eq S fd _ _ w
    · rfl

theorem printptrLoopOn_eq {σ : Type} (S : Sink σ) (fd : Int) :
    ∀ (n x : Nat) (w : World σ),
      printptrLoopOn S fd n x w = (printptrLoop fd n x).map (issue S w) := by
  intro n
  induction n with
  | zero => intro x w; simp [printptrLoopOn, printptrLoop, issue_nil]
  | succ n ih =>
    intro x w
    cases hc : digits[x >>> 60]? with
    | none => simp [printptrLoopOn, printptrLoop, hc]
    | some c =>
      simp only [printptrLoopOn, printptrLoop, hc, ih, putcOn_eq_issue]
      cases printptrLoop fd n (x <<< 4 % 2 ^ 64) with
      | none => rfl
      | some out => simp [issue_append]

theorem printptrOn_eq {σ : Type} (S : Sink σ) (w : World σ) (fd : Int) (x : Nat) :
    printptrOn S w fd x = (printptr fd x).map (issue S w) := by
  unfold printptrOn printptr
  rw [printptrLoopOn_eq, putcOn_eq_issue, putcOn_eq_issue]
  cases printptrLoop fd 16 (x % 2 ^ 64) with
  | none => rfl
  | some out => simp [issue_append]

theorem putsLoopOn_eq {σ : Type} (S : Sink σ) (fd : Int) :
    ∀ (s : List Nat) (w : World σ),
      putsLoopOn S fd s w = (putsLoop fd s).map (issue S w) := by
  intro s
  induction s with
  | nil => intro w; rfl
  | cons b rest ih =>
    intro w
    by_cases hb : b % 256 ≠ 0
    · rw [putsLoopOn, putsLoop, if_pos hb, if_pos hb, ih, putcOn_eq_issue]
      cases putsLoop fd rest with
      | none => rfl
      | some out => simp [issue_append]
    · simp [putsLoopOn, putsLoop, hb, issue_nil]

theorem resolveOn_eq {σ : Type} (S : Sink σ) (w : World σ) (ap0 ap : List Nat) (s : Nat)
    (e : Option (List Write)) :
    resolveOn ap (e.map (issue S w)) =
      (resolve ⟨[], ap0, s⟩ ap e).map (fun st => ⟨issue S w st.out, st.ap, st.state⟩) := by
  cases e <;> simp [resolveOn, resolve]

/-- The body of the loop against a sink makes the requests of the body of the
loop, and reaches the same `ap` and `state`. -/
theorem stepOn_eq {σ : Type} (S : Sink σ) (mem : List Nat) (fd : Int) (w : World σ)
    (ap : List Nat) (s c : Nat) :
    stepOn S mem fd ⟨w, ap, s⟩ c =
      (step mem fd ⟨[], ap, s⟩ c).map (fun st => ⟨issue S w st.out, st.ap, st.state⟩) := by
  by_cases h0 : s = 0
  · by_cases hc : c = 37
    · simp [stepOn, step, h0, hc, issue_nil]
    · simp [stepOn, step, h0, hc, putcOn_eq_issue]
  · by_cases h37 : s = 37
    · subst h37
      have e1 : ∀ x : Nat, (some (putcOn S w fd x) : Option (World σ)) =
          (some (putc fd x)).map (issue S w) := fun x => rfl
      have e2 : ∀ x y : Nat, (some (putcOn S (putcOn S w fd x) fd y) : Option (World σ)) =
          (some (putc fd x ++ putc fd y)).map (issue S w) := by
        intro x y
        simp [putcOn_eq_issue, issue_append]
      unfold stepOn step
      simp only [h0, if_false, if_true, printintOn_eq, printptrOn_eq, putsLoopOn_eq, e1, e2]
      cases ap <;> split_ifs <;> first | rfl | exact resolveOn_eq S w _ _ _ _
    · simp [stepOn, step, h0, h37, issue_nil]

theorem vprintfLoopOn_eq {σ : Type} (S : Sink σ) (mem : List Nat) (fd : Int) :
    ∀ (t : List Nat) (w : World σ) (ap : List Nat) (s : Nat),
      vprintfLoopOn S mem fd t ⟨w, ap, s⟩ =
        (vprintfLoop mem fd t ⟨[], ap, s⟩).map
          (fun st => ⟨issue S w st.out, st.ap, st.state⟩) := by
  intro t
  induction t with
  | nil => intro w ap s; rfl
  | cons b t ih =>
    intro w ap s
    by_cases hb : b % 256 ≠ 0
    · rw [vprintfLoop_cons mem fd b t _ hb, vprintfLoopOn, if_pos hb, stepOn_eq]
      cases step mem fd ⟨[], ap, s⟩ (b % 256) with
      | none => rfl
      | some st1 =>
        obtain ⟨o1, a1, s1⟩ := st1
        simp only [Option.map_some', Option.some_bind, ih]
        rw [vprintfLoop_out mem fd t o1 a1 s1]
        cases vprintfLoop mem fd t ⟨[], a1, s1⟩ <;> simp [issue_append]
    · simp [vprintfLoopOn, vprintfLoop, hb, issue_nil]

theorem targets_nil (fd : Int) : targets fd [] := by
  intro p hp
  cases hp

theorem targets_append {fd : Int} {a b : List Write} (ha : targets fd a) (hb : targets fd b) :
    targets fd (a ++ b) := by
  intro p hp
  rcases List.mem_append.mp hp with h | h
  · exact ha p h
  · exact hb p h

theorem targets_putc (fd : Int) (c : Nat) : targets fd (putc fd c) := by
  intro p hp
  simp only [putc, List.mem_singleton] at hp
  subst hp
  exact ⟨rfl, Nat.mod_lt _ (by norm_num)⟩

theorem emitLoop_targets (fd : Int) :
    ∀ (i : Nat) (buf : List Nat) (out : List Write),
      emitLoop fd i buf = some out → targets fd out := by
  intro i
  induction i with
  | zero =>
    intro buf out h
    simp only [emitLoop, Option.some.injEq] at h
    subst h
    exact targets_nil fd
  | succ i ih =>
    intro buf out h
    cases hc : buf[i]? with
    | none => simp [emitLoop, hc] at h
    | some c =>
      cases hrec : emitLoop fd i (buf.set i 0) with
      | none => simp [emitLoop, hc, hrec] at h
      | some o =>
        simp only [emitLoop, hc, hrec, Option.some.injEq] at h
        subst h
        exact targets_append (targets_putc fd c) (ih _ _ hrec)

theorem printint_targets (fd xx base sgn : Int) (out : List Write)
    (h : printint fd xx base sgn = some out) : targets fd out := by
  unfold printint at h
  generalize (if sgn ≠ 0 ∧ xx < 0 then toU32 (-xx) else toU32 xx) = x at h
  generalize (if sgn ≠ 0 ∧ xx < 0 then 1 else 0 : Nat) = neg at h
  dsimp only at h
  split at h
  · cases h
  · split at h
    · exact emitLoop_targets fd _ _ _ h
    · cases h

theorem printptrLoop_targets (fd : Int) :
    ∀ (n x : Nat) (out : List Write), printptrLoop fd n x = some out → targets fd out := by
  intro n
  induction n with
  | zero =>
    intro x out h
    simp only [printptrLoop, Option.some.injEq] at h
    subst h
    exact targets_nil fd
  | succ n ih =>
    intro x out h
    rw [printptrLoop] at h
    split at h
    next => cases h
    next c hc =>
      split at h
      next => cases h
      next o hrec =>
        rw [Option.some.injEq] at h
        subst h
        exact targets_append (targets_putc fd c) (ih _ _ hrec)

theorem printptr_targets (fd : Int) (x : Nat) (out : List Write)
    (h : printptr fd x = some out) : targets fd out := by
  unfold printptr at h
  split at h
  next => cases h
  next o hrec =>
    rw [Option.some.injEq] at h
    subst h
    exact targets_append (targets_append (targets_putc fd 48) (targets_putc fd 120))
      (printptrLoop_targets fd _ _ _ hrec)

theorem putsLoop_targets (fd : Int) :
    ∀ (s : List Nat) (out : List Write), putsLoop fd s = some out → targets fd out := by
  intro s
  induction s with
  | nil => intro out h; simp [putsLoop] at h
  | cons b rest ih =>
    intro out h
    by_cases hb : b % 256 ≠ 0
    · rw [putsLoop, if_pos hb] at h
      cases hrec : putsLoop fd rest with
      | none => simp [hrec] at h
      | some o =>
        simp only [hrec, Option.some.injEq] at h
        subst h
        exact targets_append (targets_putc fd b) (ih _ hrec)
    · rw [putsLoop, if_neg hb, Option.some.injEq] at h
      subst h
      exact targets_nil fd

theorem resolve_targets (fd : Int) (ap0 ap : List Nat) (s : Nat) (e : Option (List Write))
    (st1 : Scan) (he : ∀ ws, e = some ws → targets fd ws)
    (h : resolve ⟨[], ap0, s⟩ ap e = some st1) : targets fd st1.out := by
  cases e with
  | none => simp [resolve] at h
  | some ws =>
    simp only [resolve, Option.some.injEq] at h
    subst h
    simpa using he ws rfl

theorem step_targets (mem : List Nat) (fd : Int) (ap : List Nat) (s c : Nat) (st1 : Scan)
    (h : step mem fd ⟨[], ap, s⟩ c = some st1) : targets fd st1.out := by
  by_cases h0 : s = 0
  · by_cases hc : c = 37
    · simp only [step, h0, hc, if_true, Option.some.injEq] at h
      subst h
      exact targets_nil fd
    · simp only [step, h0, hc, if_true, if_false, Option.some.injEq] at h
      subst h
      simpa using targets_putc fd c
  · by_cases h37 : s = 37
    · subst h37
      have hp1 : ∀ x ws, (some (putc fd x) : Option (List Write)) = some ws → targets fd ws := by
        intro x ws hw
        cases hw
        exact targets_putc fd x
      have hp2 : ∀ x y ws, (some (putc fd x ++ putc fd y) : Option (List Write)) = some ws →
          targets fd ws := by
        intro x y ws hw
        cases hw
        exact targets_append (targets_putc fd x) (targets_putc fd y)
      unfold step at h
      simp only [h0, if_false, if_true] at h
      cases ap <;> split_ifs at h <;>
        first
        | exact resolve_targets fd _ _ _ _ st1 (printint_targets fd _ _ _) h
        | exact resolve_targets fd _ _ _ _ st1 (printptr_targets fd _) h
        | exact resolve_targets fd _ _ _ _ st1 (putsLoop_targets fd _) h
        | exact resolve_targets fd _ _ _ _ st1 (hp1 _) h
        | exact resolve_targets fd _ _ _ _ st1 (hp2 _ _) h
    · simp only [step, h0, h37, if_false, Option.some.injEq] at h
      subst h
      exact targets_nil fd

theorem vprintfLoop_targets (mem : List Nat) (fd : Int) :
    ∀ (t : List Nat) (ap : List Nat) (s : Nat) (st1 : Scan),
      vprintfLoop mem fd t ⟨[], ap, s⟩ = some st1 → targets fd st1.out := by
  intro t
  induction t with
  | nil => intro ap s st1 h; simp [vprintfLoop] at h
  | cons b t ih =>
    intro ap s st1 h
    by_cases hb : b % 256 ≠ 0
    · rw [vprintfLoop_cons mem fd b t _ hb] at h
      cases hstep : step mem fd ⟨[], ap, s⟩ (b % 256) with
      | none => simp [hstep] at h
      | some st2 =>
        obtain ⟨o2, a2, s2⟩ := st2
        rw [hstep, Option.some_bind, vprintfLoop_out] at h
        cases hrec : vprintfLoop mem fd t ⟨[], a2, s2⟩ with
        | none => simp [hrec] at h
        | some st3 =>
          simp only [hrec, Option.map_some', Option.some.injEq] at h
          subst h
          exact targets_append (step_targets mem fd ap s _ _ hstep) (ih _ _ _ hrec)
    · rw [vprintfLoop, if_neg hb, Option.some.injEq] at h
      subst h
      exact targets_nil fd

/-- The run of `vprintf` against a sink makes the requests of `vprintf` and
reaches the same `ap` and `state`. -/
theorem vprintfOn_eq {σ : Type} (S : Sink σ) (mem : List Nat) (fd : Int) (fmt ap : List Nat)
    (s : σ) :
    (vprintfOn S mem fd fmt ap ⟨s, []⟩).map (fun res => (res.world.reqs, res.ap, res.state)) =
      (vprintf mem fd fmt ap).map
        (fun st => (st.out.map (fun p => (p.1, [p.2])), st.ap, st.state)) := by
  unfold vprintfOn vprintf
  rw [vprintfLoopOn_eq]
  cases vprintfLoop mem fd fmt ⟨[], ap, 0⟩ with
  | none => rfl
  | some st => simp [issue_reqs]

/-- C15: sink failure is not detected. For every format and argument list,
and any two sinks, whatever their `write` returns, `vprintf` makes the same
sequence of requests and ends with the same `ap` and `state`, or faults on
both; that sequence is the one of the trace model, in which the loop runs to
the terminator; and every request is for the descriptor passed to `vprintf`
and carries exactly one byte. -/
theorem vprintf_sink_oblivious {σ τ : Type} (S : Sink σ) (T : Sink τ) (s : σ) (t : τ)
    (mem : List Nat) (fd : Int) (fmt ap : List Nat) :
    (vprintfOn S mem fd fmt ap ⟨s, []⟩).map (fun res => (res.world.reqs, res.ap, res.state)) =
        (vprintfOn T mem fd fmt ap ⟨t, []⟩).map
          (fun res => (res.world.reqs, res.ap, res.state)) ∧
      (vprintfOn S mem fd fmt ap ⟨s, []⟩).map (fun res => (res.world.reqs, res.ap, res.state)) =
        (vprintf mem fd fmt ap).map
          (fun st => (st.out.map (fun p => (p.1, [p.2])), st.ap, st.state)) ∧
      (vprintfOn S mem fd fmt ap ⟨s, []⟩).isSome = (vprintf mem fd fmt ap).isSome ∧
      ∀ res, vprintfOn S mem fd fmt ap ⟨s, []⟩ = some res →
        ∀ q ∈ res.world.reqs, ∃ b, b < 256 ∧ q = (fd, [b]) := by
  refine ⟨by rw [vprintfOn_eq, vprintfOn_eq], vprintfOn_eq S mem fd fmt ap s, ?_, ?_⟩
  · have := congrArg Option.isSome (vprintfOn_eq S mem fd fmt ap s)
    simpa using this
  · intro res hres q hq
    have hrun := vprintfLoopOn_eq S mem fd fmt ⟨s, []⟩ ap 0
    unfold vprintfOn at hres
    rw [hres] at hrun
    cases hpure : vprintfLoop mem fd fmt ⟨[], ap, 0⟩ with
    | none => simp [hpure] at hrun
    | some st =>
      rw [hpure, Option.map_some', Option.some.injEq] at hrun
      subst hrun
      simp only [issue_reqs, List.nil_append, List.mem_map] at hq
      obtain ⟨p, hp, rfl⟩ := hq
      have := vprintfLoop_targets mem fd fmt ap 0 st hpure p hp
      exact ⟨p.2, this.2, by rw [this.1]⟩

end Printf
